import Mathlib

/-!
Shallow embedding of `benjaco/k8s-secret-compare` (src/main.go) and proofs
about its comparison, reporting and validation logic.

Conventions:
* Go `map[string]string` values are association lists (`KVMap`); a Go map
  write `m[k] = v` is `goInsert`, a Go map read `v, ok := m[k]` is `findVal`
  (`some v` iff the key is present).  Folds over such lists determinise Go's
  unspecified map iteration order; all proved statements are order
  independent.
* Go pointers are `Option`; dereferencing a nil pointer is modelled by
  propagating `none` (a runtime panic).
* Where character-level string operations matter (`formatYAMLValue`, glob
  patterns) Go strings are `List Char`; elsewhere they are Lean `String`.
-/

/-- Go `map[string]string`, as an association list with unique keys. -/
abbrev KVMap := List (String × String)

/-- Go map read `v, ok := m[k]`: `some v` iff `k` is bound in `m` (value
type generic so that both `map[string]string` and `map[string][]byte` are
covered). -/
def findVal {α : Type} (m : List (String × α)) (k : String) : Option α :=
  match m with
  | [] => none
  | (k', v) :: rest => if k' = k then some v else findVal rest k

/-- Go map write `m[k] = v`: replaces the binding of `k` if present,
otherwise appends a new binding. -/
def goInsert (m : KVMap) (k : String) (v : String) : KVMap :=
  match m with
  | [] => [(k, v)]
  | (k', v') :: rest => if k' = k then (k, v) :: rest else (k', v') :: goInsert rest k v

/-- Metadata of a local manifest document (src/main.go:33). -/
structure Metadata where
  Name : String
  Namespace : String
deriving DecidableEq

/-- The structure of a local Kubernetes Secret YAML document (src/main.go:24). -/
structure KubernetesSecret where
  APIVersion : String
  Kind : String
  Metadata : Metadata
  Type' : String
  StringData : KVMap
deriving DecidableEq

/-- The structure of a deployed Kubernetes Secret (src/main.go:39). -/
structure DeployedSecret where
  Name : String
  Namespace : String
  Data : KVMap
deriving DecidableEq

/-- A difference in a secret's key-value pair (src/main.go:46); the Go
`*string` fields are `Option String`. -/
structure SecretDifference where
  Key : String
  Local : Option String
  Deployed : Option String
deriving DecidableEq

/-- The key set built at src/main.go:307-313: all keys of the local
`stringData` and the deployed data, duplicates collapsed. -/
def keysSet (localS : KubernetesSecret) (d : DeployedSecret) : List String :=
  (localS.StringData.map Prod.fst ++ d.Data.map Prod.fst).dedup

/-- The classification of one key by the loop at src/main.go:315-341. -/
def classifyKey (localS : KubernetesSecret) (d : DeployedSecret) (key : String) :
    Option SecretDifference :=
  match findVal localS.StringData key, findVal d.Data key with
  | none, some deployedVal => some ⟨key, none, some deployedVal⟩
  | some localVal, none => some ⟨key, some localVal, none⟩
  | some localVal, some deployedVal =>
      if localVal ≠ deployedVal then some ⟨key, some localVal, some deployedVal⟩ else none
  | none, none => none

/-- Body of `compareSecrets` (src/main.go:303-344) once the `deployed`
pointer has been dereferenced: one pass over the key set, collecting the
classified differences. -/
def compareSecretsBody (localS : KubernetesSecret) (d : DeployedSecret) :
    List SecretDifference :=
  (keysSet localS d).filterMap (classifyKey localS d)

/-- The function `compareSecrets` (src/main.go:303): its `deployed` parameter is a
Go pointer (`*DeployedSecret`), modelled as `Option`; iterating
`deployed.Data` when the pointer is nil dereferences nil and panics,
modelled as `none`. -/
def compareSecrets (localS : KubernetesSecret) (deployed : Option DeployedSecret) :
    Option (List SecretDifference) :=
  match deployed with
  | none => none
  | some d => some (compareSecretsBody localS d)

/-- Verdict fold of main's loop (src/main.go:90 and 116-119): one list entry
per compared resource, holding that resource's difference list; the flag
starts `false` and is set whenever a non-empty difference list is seen. -/
def globalDifferencesFound (diffLists : List (List SecretDifference)) : Bool :=
  diffLists.foldl (fun acc diffs => if diffs.length = 0 then acc else true) false

/-- Exit-status selection at src/main.go:167-174: status 1 iff the verdict
flag was set, status 0 otherwise (also the status of the early return when
no files matched, src/main.go:84-87, where zero resources are processed). -/
def mainExitCode (diffLists : List (List SecretDifference)) : Nat :=
  if globalDifferencesFound diffLists then 1 else 0

/-- The final summary line printed at src/main.go:169 and 172, chosen by the
verdict flag. -/
def summaryLine (differencesFound : Bool) : String :=
  if differencesFound then "Summary: Differences were found in some secrets."
  else "Summary: All secrets match across environments."

/-- Admission policy checked on each decoded document (src/main.go:248-264):
kind must be "Secret", name and namespace non-empty, `stringData` non-empty. -/
def admissibleSecret (s : KubernetesSecret) : Bool :=
  decide (s.Kind = "Secret") && decide (s.Metadata.Name ≠ "") &&
    decide (s.Metadata.Namespace ≠ "") && decide (s.StringData.length ≠ 0)

/-- Validation loop of `parseYAMLSecrets` (src/main.go:237-267), applied to
the documents the external YAML deserializer decoded from one file: each
document is checked independently; a rejected one is skipped (logged) and the
loop continues with its siblings. -/
def parseYAMLSecrets (docs : List KubernetesSecret) : List KubernetesSecret :=
  match docs with
  | [] => []
  | secret :: rest =>
    if secret.Kind ≠ "Secret" then parseYAMLSecrets rest
    else if secret.Metadata.Name = "" then parseYAMLSecrets rest
    else if secret.Metadata.Namespace = "" then parseYAMLSecrets rest
    else if secret.StringData.length = 0 then parseYAMLSecrets rest
    else secret :: parseYAMLSecrets rest

/-- The run's admitted documents across files (main's file loop,
src/main.go:92-100): every file contributes its own validated documents. -/
def runLocalSecrets (files : List (List KubernetesSecret)) : List KubernetesSecret :=
  (files.map parseYAMLSecrets).flatten

/-- One step of the reporter's accumulator loop (src/main.go:125-140): the
pair is `(missingLocalKeys, replaceLocalKeys)`, in the order the two maps are
declared at src/main.go:122-123. -/
def reportStep (acc : KVMap × KVMap) (diff : SecretDifference) : KVMap × KVMap :=
  match diff.Local, diff.Deployed with
  | some _, some dv => (acc.1, goInsert acc.2 diff.Key dv)
  | some _, none => acc
  | none, some dv => (goInsert acc.1 diff.Key dv, acc.2)
  | none, none => acc

/-- The reporter's pass over one resource's difference list
(src/main.go:125-140). -/
def reportDiffs (diffs : List SecretDifference) (acc : KVMap × KVMap) : KVMap × KVMap :=
  match diffs with
  | [] => acc
  | diff :: rest => reportDiffs rest (reportStep acc diff)

/-- The `missingLocalKeys` accumulator after the loop (src/main.go:122,138). -/
def missingLocalKeys (diffs : List SecretDifference) : KVMap :=
  (reportDiffs diffs ([], [])).1

/-- The `replaceLocalKeys` accumulator after the loop (src/main.go:123,131). -/
def replaceLocalKeys (diffs : List SecretDifference) : KVMap :=
  (reportDiffs diffs ([], [])).2

/-- Guard of the merge snippet (src/main.go:143): rendered iff
`replaceLocalKeys` is non-empty. -/
def mergeSnippetRendered (diffs : List SecretDifference) : Bool :=
  decide ((replaceLocalKeys diffs).length > 0)

/-- Guard of the add snippet (src/main.go:153): rendered iff
`missingLocalKeys` is non-empty. -/
def addSnippetRendered (diffs : List SecretDifference) : Bool :=
  decide ((missingLocalKeys diffs).length > 0)

/-- Go `strings.Split(s, sep)` for a one-character separator: the substrings
between consecutive separators (`strings.Split("", sep)` is `[""]`). -/
def goSplit (sep : Char) (s : List Char) : List (List Char) :=
  match s with
  | [] => [[]]
  | c :: cs =>
    if c = sep then [] :: goSplit sep cs
    else
      match goSplit sep cs with
      | [] => [[c]]
      | l :: ls => (c :: l) :: ls

/-- Go `strings.Join(elems, sep)` for a one-character separator. -/
def goJoin (sep : Char) (elems : List (List Char)) : List Char :=
  match elems with
  | [] => []
  | [l] => l
  | l :: ls => l ++ sep :: goJoin sep ls

/-- Go `strings.ReplaceAll(value, "\"", "\\\"")` (src/main.go:191): with a
one-character pattern, each `"` is replaced by the two characters `\` `"`. -/
def goReplaceAllQuote (value : List Char) : List Char :=
  value.flatMap (fun c => if c = '"' then ['\\', '"'] else [c])

/-- The function `formatYAMLValue` (src/main.go:179-193): multiline values become a
`|-` block with each line indented by four spaces; single-line values are
double-quoted with only `"` escaped. -/
def formatYAMLValue (value : List Char) : List Char :=
  if '\n' ∈ value then
    '|' :: '-' :: '\n' ::
      goJoin '\n' ((goSplit '\n' value).map (fun line => ' ' :: ' ' :: ' ' :: ' ' :: line))
  else
    '"' :: goReplaceAllQuote value ++ ['"']

/-- Data of a fetched cluster Secret object as used at src/main.go:283-297:
its `data` field maps keys to byte slices, its `stringData` field maps keys
to strings. -/
structure ClusterSecret where
  Name : String
  Namespace : String
  Data : List (String × List UInt8)
  StringData : KVMap
deriving DecidableEq

/-- Go `string(value)` on a byte slice: the bytes, read back as characters. -/
def stringOfBytes (bs : List UInt8) : String :=
  ⟨bs.map (fun b => Char.ofNat b.toNat)⟩

/-- The map handed to the Diff Engine (src/main.go:283-293): every `data`
entry is copied (bytes converted to a string), then every `stringData` entry
is copied over it. -/
def decodeDeployedData (secret : ClusterSecret) : KVMap :=
  secret.StringData.foldl (fun m kv => goInsert m kv.1 kv.2)
    (secret.Data.foldl (fun m kv => goInsert m kv.1 (stringOfBytes kv.2)) [])

/-- Outcome of the cluster API `Get` call at src/main.go:274, as the fetcher
distinguishes it: not found, some other error, or the secret object. -/
inductive FetchOutcome where
  | notFound
  | fetchError (msg : String)
  | found (secret : ClusterSecret)
deriving DecidableEq

/-- The function `getDeployedSecret` (src/main.go:273-300): not-found yields
`(nil, nil)` — modelled `Except.ok none`; other errors are wrapped and
returned; a fetched object is decoded via `decodeDeployedData`. -/
def getDeployedSecret (outcome : FetchOutcome) : Except String (Option DeployedSecret) :=
  match outcome with
  | .notFound => .ok none
  | .fetchError msg => .error ("error fetching secret: " ++ msg)
  | .found secret =>
      .ok (some ⟨secret.Name, secret.Namespace, decodeDeployedData secret⟩)

/-- What main's per-resource body (src/main.go:106-113) does with one local
secret: skip on a fetch error, panic on a nil `*DeployedSecret` (the nil is
dereferenced inside `compareSecrets`), or produce the difference list. -/
inductive ResourceStep where
  | skippedFetchError
  | nilDereferencePanic
  | compared (diffs : List SecretDifference)
deriving DecidableEq

/-- Main's per-resource body (src/main.go:106-113): fetch the deployed
secret, skip (log and continue) only when `err != nil`, otherwise hand the
returned pointer straight to `compareSecrets`. -/
def processLocalSecret (localSecret : KubernetesSecret) (outcome : FetchOutcome) :
    ResourceStep :=
  match getDeployedSecret outcome with
  | .error _ => .skippedFetchError
  | .ok deployedSecret =>
    match compareSecrets localSecret deployedSecret with
    | none => .nilDereferencePanic
    | some diffs => .compared diffs

/-- Suffixes of `s` obtainable by deleting a prefix free of the path
separator `/`: exactly what one `*` of a glob pattern may consume
(path/filepath.Match: `*` matches any sequence of non-separator characters). -/
def nonSepSuffixes (s : List Char) : List (List Char) :=
  match s with
  | [] => [[]]
  | c :: rest => (c :: rest) :: (if c = '/' then [] else nonSepSuffixes rest)

/-- Glob matching for the pattern features the tool's patterns use: literal
characters and `*`. Modelled from the spec: file discovery is an external
collaborator ("file discovery via glob patterns"), whose `path/filepath.Match`
semantics say `*` matches any sequence of non-separator characters and the
whole name must be matched. -/
def globMatch (p s : List Char) : Bool :=
  match p with
  | [] => s.isEmpty
  | c :: p' =>
    if c = '*' then (nonSepSuffixes s).any (fun t => globMatch p' t)
    else
      match s with
      | [] => false
      | c' :: s' => decide (c = c') && globMatch p' s'

/-- Go `strings.TrimSpace`: leading and trailing whitespace removed. -/
def trimSpace (s : List Char) : List Char :=
  ((s.dropWhile Char.isWhitespace).reverse.dropWhile Char.isWhitespace).reverse

/-- The function `parsePatterns` (src/main.go:196-207) with `dir = "."`, the
`--dir` default (for which Go's `filepath.Join(".", p)` is `p` again): split
the flag value on commas, trim whitespace, drop empty entries. -/
def parsePatterns (patternStr : List Char) : List (List Char) :=
  (goSplit ',' patternStr).filterMap
    (fun p => if trimSpace p = [] then none else some (trimSpace p))

/-- Default value of the `--pattern` flag (src/main.go:55). -/
def defaultPattern : List Char := "*secret*.yaml,*secret*.yml".toList

/-- Whether a filename is matched by any glob of the default `--pattern`
value (main's discovery loop, src/main.go:74-82). -/
def defaultPatternMatches (name : List Char) : Bool :=
  (parsePatterns defaultPattern).any (fun p => globMatch p name)

/-- Test of the embedding on the spec's Scenario 2: one DIFFERENT entry. -/
example :
    compareSecrets ⟨"v1", "Secret", ⟨"s", "ns"⟩, "", [("A", "1")]⟩
      (some ⟨"s", "ns", [("A", "2")]⟩) =
    some [⟨"A", some "1", some "2"⟩] := by decide

/-- Test of the embedding on the spec's Scenario 3: one ONLY_IN_LOCAL entry. -/
example :
    compareSecrets ⟨"v1", "Secret", ⟨"s", "ns"⟩, "", [("A", "1")]⟩
      (some ⟨"s", "ns", []⟩) =
    some [⟨"A", some "1", none⟩] := by decide

/-! Helper lemmas about the map embedding. -/

theorem findVal_eq_none_iff {α : Type} (m : List (String × α)) (k : String) :
    findVal m k = none ↔ k ∉ m.map Prod.fst := by
  induction m with
  | nil => simp [findVal]
  | cons p rest ih =>
    obtain ⟨k', v⟩ := p
    by_cases h : k' = k <;> simp [findVal, h, ih, Ne.symm, eq_comm]

theorem mem_keys_of_findVal_eq_some {α : Type} {m : List (String × α)} {k : String} {v : α}
    (h : findVal m k = some v) : k ∈ m.map Prod.fst := by
  by_contra hk
  rw [← findVal_eq_none_iff] at hk
  rw [hk] at h
  exact Option.noConfusion h

theorem findVal_goInsert (m : KVMap) (k v k' : String) :
    findVal (goInsert m k v) k' = if k = k' then some v else findVal m k' := by
  induction m with
  | nil => simp [goInsert, findVal]
  | cons p rest ih =>
    obtain ⟨k₀, v₀⟩ := p
    by_cases h : k₀ = k
    · subst h
      by_cases h' : k₀ = k' <;> simp [goInsert, findVal, h', ih]
    · by_cases h' : k₀ = k'
      · have hk : ¬(k = k') := fun he => h (h'.trans he.symm)
        have hk2 : ¬(k' = k) := fun he => h (h'.trans he)
        simp [goInsert, findVal, h, h', hk, hk2, ih]
      · simp [goInsert, findVal, h, h', ih]

theorem goInsert_of_not_mem {m : KVMap} {k : String} (v : String)
    (h : k ∉ m.map Prod.fst) : goInsert m k v = m ++ [(k, v)] := by
  induction m with
  | nil => simp [goInsert]
  | cons p rest ih =>
    obtain ⟨k₀, v₀⟩ := p
    simp only [List.map_cons, List.mem_cons] at h
    push_neg at h
    simp [goInsert, Ne.symm h.1, ih h.2]

/-! Helper lemmas about the Diff Engine. -/

theorem mem_keysSet {localS : KubernetesSecret} {d : DeployedSecret} {k : String} :
    k ∈ keysSet localS d ↔
      k ∈ localS.StringData.map Prod.fst ∨ k ∈ d.Data.map Prod.fst := by
  simp [keysSet, List.mem_dedup, List.mem_append]

theorem keysSet_nodup (localS : KubernetesSecret) (d : DeployedSecret) :
    (keysSet localS d).Nodup :=
  List.nodup_dedup _

theorem classifyKey_key {localS : KubernetesSecret} {d : DeployedSecret} {k : String}
    {e : SecretDifference} (h : classifyKey localS d k = some e) : e.Key = k := by
  unfold classifyKey at h
  split at h
  · cases h; rfl
  · cases h; rfl
  · split at h
    · cases h; rfl
    · exact Option.noConfusion h
  · exact Option.noConfusion h

theorem filterMap_sublist_of_key {α : Type} (f : α → Option α) (l : List α)
    (h : ∀ a, f a = none ∨ f a = some a) : List.Sublist (l.filterMap f) l := by
  induction l with
  | nil => simp
  | cons a rest ih =>
    rcases h a with ha | ha
    · rw [List.filterMap_cons, ha]
      exact ih.cons a
    · rw [List.filterMap_cons, ha]
      exact ih.cons₂ a

theorem compareSecretsBody_keys_sublist (localS : KubernetesSecret) (d : DeployedSecret) :
    List.Sublist ((compareSecretsBody localS d).map SecretDifference.Key)
      (keysSet localS d) := by
  rw [compareSecretsBody, List.map_filterMap]
  apply filterMap_sublist_of_key
  intro k
  cases h : classifyKey localS d k with
  | none => left; simp [h]
  | some e => right; simp [h, classifyKey_key h]

theorem compareSecretsBody_keys_nodup (localS : KubernetesSecret) (d : DeployedSecret) :
    ((compareSecretsBody localS d).map SecretDifference.Key).Nodup :=
  (keysSet_nodup localS d).sublist (compareSecretsBody_keys_sublist localS d)

theorem mem_compareSecretsBody {localS : KubernetesSecret} {d : DeployedSecret}
    {e : SecretDifference} :
    e ∈ compareSecretsBody localS d ↔
      e.Key ∈ keysSet localS d ∧ classifyKey localS d e.Key = some e := by
  rw [compareSecretsBody, List.mem_filterMap]
  constructor
  · rintro ⟨k, hk, hcl⟩
    have := classifyKey_key hcl
    subst this
    exact ⟨hk, hcl⟩
  · rintro ⟨hk, hcl⟩
    exact ⟨e.Key, hk, hcl⟩

/-! Classification lemmas, one per entry shape. -/

theorem mem_body_only_deployed {localS : KubernetesSecret} {d : DeployedSecret}
    {k dv : String} :
    (⟨k, none, some dv⟩ : SecretDifference) ∈ compareSecretsBody localS d ↔
      findVal localS.StringData k = none ∧ findVal d.Data k = some dv := by
  rw [mem_compareSecretsBody]
  constructor
  · rintro ⟨hk, hcl⟩
    cases hl : findVal localS.StringData k <;> cases hd : findVal d.Data k <;>
      simp only [classifyKey, hl, hd] at hcl
    · exact Option.noConfusion hcl
    · cases hcl
      exact ⟨rfl, rfl⟩
    · exact absurd (congrArg SecretDifference.Local (Option.some.inj hcl)) (by simp)
    · split at hcl
      · exact absurd (congrArg SecretDifference.Local (Option.some.inj hcl)) (by simp)
      · exact Option.noConfusion hcl
  · rintro ⟨h1, h2⟩
    refine ⟨mem_keysSet.mpr (Or.inr (mem_keys_of_findVal_eq_some h2)), ?_⟩
    simp only [classifyKey, h1, h2]

theorem mem_body_only_local {localS : KubernetesSecret} {d : DeployedSecret}
    {k lv : String} :
    (⟨k, some lv, none⟩ : SecretDifference) ∈ compareSecretsBody localS d ↔
      findVal localS.StringData k = some lv ∧ findVal d.Data k = none := by
  rw [mem_compareSecretsBody]
  constructor
  · rintro ⟨hk, hcl⟩
    cases hl : findVal localS.StringData k <;> cases hd : findVal d.Data k <;>
      simp only [classifyKey, hl, hd] at hcl
    · exact Option.noConfusion hcl
    · exact absurd (congrArg SecretDifference.Local (Option.some.inj hcl)) (by simp)
    · cases hcl
      exact ⟨rfl, rfl⟩
    · split at hcl
      · exact absurd (congrArg SecretDifference.Deployed (Option.some.inj hcl)) (by simp)
      · exact Option.noConfusion hcl
  · rintro ⟨h1, h2⟩
    refine ⟨mem_keysSet.mpr (Or.inl (mem_keys_of_findVal_eq_some h1)), ?_⟩
    simp only [classifyKey, h1, h2]

theorem mem_body_different {localS : KubernetesSecret} {d : DeployedSecret}
    {k lv dv : String} :
    (⟨k, some lv, some dv⟩ : SecretDifference) ∈ compareSecretsBody localS d ↔
      findVal localS.StringData k = some lv ∧ findVal d.Data k = some dv ∧ lv ≠ dv := by
  rw [mem_compareSecretsBody]
  constructor
  · rintro ⟨hk, hcl⟩
    cases hl : findVal localS.StringData k <;> cases hd : findVal d.Data k <;>
      simp only [classifyKey, hl, hd] at hcl
    · exact Option.noConfusion hcl
    · exact absurd (congrArg SecretDifference.Local (Option.some.inj hcl)) (by simp)
    · exact absurd (congrArg SecretDifference.Deployed (Option.some.inj hcl)) (by simp)
    · split at hcl
      · rename_i hne
        cases hcl
        exact ⟨rfl, rfl, hne⟩
      · exact Option.noConfusion hcl
  · rintro ⟨h1, h2, h3⟩
    refine ⟨mem_keysSet.mpr (Or.inl (mem_keys_of_findVal_eq_some h1)), ?_⟩
    simp only [classifyKey, h1, h2]
    simp [h3]

theorem not_mem_body_both_absent {localS : KubernetesSecret} {d : DeployedSecret}
    {k : String} :
    (⟨k, none, none⟩ : SecretDifference) ∉ compareSecretsBody localS d := by
  rw [mem_compareSecretsBody]
  rintro ⟨hk, hcl⟩
  cases hl : findVal localS.StringData k <;> cases hd : findVal d.Data k <;>
    simp only [classifyKey, hl, hd] at hcl
  · exact Option.noConfusion hcl
  · exact absurd (congrArg SecretDifference.Deployed (Option.some.inj hcl)) (by simp)
  · exact absurd (congrArg SecretDifference.Local (Option.some.inj hcl)) (by simp)
  · split at hcl
    · exact absurd (congrArg SecretDifference.Local (Option.some.inj hcl)) (by simp)
    · exact Option.noConfusion hcl

/-! Verdict-fold characterisation. -/

theorem foldl_verdict_eq_any (l : List (List SecretDifference)) (b : Bool) :
    l.foldl (fun acc diffs => if diffs.length = 0 then acc else true) b
      = (b || l.any (fun diffs => decide (diffs ≠ []))) := by
  induction l generalizing b with
  | nil => simp
  | cons d rest ih =>
    rw [List.foldl_cons, ih]
    by_cases h : d = []
    · subst h
      simp
    · have hd : ¬(d.length = 0) := by simpa [List.length_eq_zero] using h
      simp [h, hd, Bool.or_assoc]

theorem globalDifferencesFound_eq_any (l : List (List SecretDifference)) :
    globalDifferencesFound l = l.any (fun diffs => decide (diffs ≠ [])) := by
  rw [globalDifferencesFound, foldl_verdict_eq_any]
  simp

/-- C1: the spec requires a not-found deployed counterpart to short-circuit
before the Diff Engine, but main (src/main.go:106-110) only skips when the
fetch returned an error; `getDeployedSecret` reports not-found as `(nil, nil)`
(src/main.go:276-279), so the nil pointer reaches `compareSecrets`, which
dereferences it (`range deployed.Data`, src/main.go:311) and panics instead of
reporting the resource as not found and continuing. -/
theorem notFound_reaches_compareSecrets :
    ∀ localSecret : KubernetesSecret,
      processLocalSecret localSecret FetchOutcome.notFound =
        ResourceStep.nilDereferencePanic := by
  intro localSecret
  rfl

/-- C2: `compareSecrets` (via its body over the dereferenced maps) yields
exactly one entry per key of the union whose values differ or that is on one
side only: keys of distinct entries are distinct, each shape of entry occurs
exactly for the matching presence/equality condition, entries with both
values absent never occur, and equal values yield no entry. -/
theorem compareSecrets_classification :
    ∀ (localS : KubernetesSecret) (d : DeployedSecret),
      compareSecrets localS (some d) = some (compareSecretsBody localS d)
      ∧ ((compareSecretsBody localS d).map SecretDifference.Key).Nodup
      ∧ (∀ k dv, (⟨k, none, some dv⟩ : SecretDifference) ∈ compareSecretsBody localS d ↔
           findVal localS.StringData k = none ∧ findVal d.Data k = some dv)
      ∧ (∀ k lv, (⟨k, some lv, none⟩ : SecretDifference) ∈ compareSecretsBody localS d ↔
           findVal localS.StringData k = some lv ∧ findVal d.Data k = none)
      ∧ (∀ k lv dv,
           (⟨k, some lv, some dv⟩ : SecretDifference) ∈ compareSecretsBody localS d ↔
             findVal localS.StringData k = some lv ∧ findVal d.Data k = some dv ∧ lv ≠ dv)
      ∧ (∀ k, (⟨k, none, none⟩ : SecretDifference) ∉ compareSecretsBody localS d) := by
  intro localS d
  exact ⟨rfl, compareSecretsBody_keys_nodup localS d,
    fun k dv => mem_body_only_deployed,
    fun k lv => mem_body_only_local,
    fun k lv dv => mem_body_different,
    fun k => not_mem_body_both_absent⟩

/-- C9: comparing any map against itself yields the empty difference
sequence. -/
theorem compareSecrets_idempotent :
    ∀ (M : KVMap) (apiV kind ty nm ns nm2 ns2 : String),
      compareSecrets ⟨apiV, kind, ⟨nm, ns⟩, ty, M⟩ (some ⟨nm2, ns2, M⟩) = some [] := by
  intro M apiV kind ty nm ns nm2 ns2
  rw [compareSecrets]
  congr 1
  rw [compareSecretsBody, List.filterMap_eq_nil_iff]
  intro k hk
  cases h : findVal M k <;> simp [classifyKey, h]

/-- C3: the verdict is monotone — any processed resource with a non-empty
difference list forces exit status 1 regardless of the rest — and the exit
status is 0 exactly when every processed resource's difference list is empty
(in particular for zero processed resources, the case of the soft early
return when no files matched). -/
theorem exitCode_verdict_monotone :
    ∀ diffLists : List (List SecretDifference),
      (∀ pre d post, diffLists = pre ++ d :: post → d ≠ [] →
        mainExitCode diffLists = 1)
      ∧ (mainExitCode diffLists = 0 ↔ ∀ d ∈ diffLists, d = []) := by
  intro L
  constructor
  · rintro pre d post rfl hd
    have h1 : globalDifferencesFound (pre ++ d :: post) = true := by
      rw [globalDifferencesFound_eq_any]
      simp [hd]
    simp [mainExitCode, h1]
  · have h2 : globalDifferencesFound L = false ↔ ∀ d ∈ L, d = [] := by
      rw [globalDifferencesFound_eq_any]
      simp [List.any_eq_false]
    rw [← h2, mainExitCode]
    cases h : globalDifferencesFound L <;> simp

/-- C7 counterexample: when the verdict flag is set, the final line printed
(src/main.go:169) is not the spec's "Summary: Differences were found in some
resources." -/
theorem summary_line_not_resources :
    summaryLine true ≠ "Summary: Differences were found in some resources." := by
  decide

/-- C7 amended: the final line is "Summary: Differences were found in some
secrets." when the aggregate verdict is differences-found, and "Summary: All
secrets match across environments." when it is all-match. -/
theorem summaryLine_matches_verdict :
    ∀ diffLists : List (List SecretDifference),
      (globalDifferencesFound diffLists = true →
        summaryLine (globalDifferencesFound diffLists) =
          "Summary: Differences were found in some secrets.")
      ∧ (globalDifferencesFound diffLists = false →
        summaryLine (globalDifferencesFound diffLists) =
          "Summary: All secrets match across environments.") := by
  intro L
  constructor <;> intro h <;> rw [h] <;> rfl

/-! Loader admission policy. -/

theorem parseYAMLSecrets_eq_filter (docs : List KubernetesSecret) :
    parseYAMLSecrets docs = docs.filter admissibleSecret := by
  induction docs with
  | nil => rfl
  | cons s rest ih =>
    rw [parseYAMLSecrets, List.filter_cons]
    by_cases h1 : s.Kind = "Secret"
    · by_cases h2 : s.Metadata.Name = ""
      · simp [admissibleSecret, h1, h2, ih]
      · by_cases h3 : s.Metadata.Namespace = ""
        · simp [admissibleSecret, h1, h2, h3, ih]
        · by_cases h4 : s.StringData.length = 0
          · simp [admissibleSecret, h1, h2, h3, h4, ih]
          · simp [admissibleSecret, h1, h2, h3, h4, ih]
    · simp [admissibleSecret, h1, ih]

/-- C6: a decoded document is admitted exactly when its kind is "Secret", its
name and namespace are non-empty and its `stringData` is non-empty; documents
are validated independently — a rejected document drops out without touching
its siblings, and every file contributes its own validated documents to the
run regardless of the other files. -/
theorem loader_admission_spec :
    ∀ docs : List KubernetesSecret,
      parseYAMLSecrets docs = docs.filter admissibleSecret
      ∧ (∀ s, s ∈ parseYAMLSecrets docs ↔ s ∈ docs ∧ admissibleSecret s = true)
      ∧ (∀ s, admissibleSecret s = true ↔
          s.Kind = "Secret" ∧ s.Metadata.Name ≠ "" ∧ s.Metadata.Namespace ≠ "" ∧
            s.StringData ≠ [])
      ∧ (∀ pre s post, admissibleSecret s = false →
          parseYAMLSecrets (pre ++ s :: post) =
            parseYAMLSecrets pre ++ parseYAMLSecrets post)
      ∧ (∀ files1 docs2 files2,
          runLocalSecrets (files1 ++ docs2 :: files2) =
            runLocalSecrets files1 ++ parseYAMLSecrets docs2 ++ runLocalSecrets files2) := by
  intro docs
  refine ⟨parseYAMLSecrets_eq_filter docs, ?_, ?_, ?_, ?_⟩
  · intro s
    rw [parseYAMLSecrets_eq_filter, List.mem_filter]
  · intro s
    simp [admissibleSecret, List.length_eq_zero, and_assoc]
  · intro pre s post h
    rw [parseYAMLSecrets_eq_filter, parseYAMLSecrets_eq_filter,
      parseYAMLSecrets_eq_filter, List.filter_append, List.filter_cons, h]
    simp
  · intro files1 docs2 files2
    simp [runLocalSecrets, List.append_assoc]

/-! Reporter accumulators. -/

theorem reportDiffs_eq_append (diffs : List SecretDifference) :
    ∀ m1 m2 : KVMap,
      (diffs.map SecretDifference.Key).Nodup →
      (∀ e ∈ diffs, e.Key ∉ m1.map Prod.fst) →
      (∀ e ∈ diffs, e.Key ∉ m2.map Prod.fst) →
      reportDiffs diffs (m1, m2) =
        (m1 ++ diffs.filterMap (fun e =>
            match e.Local, e.Deployed with
            | none, some dv => some (e.Key, dv)
            | _, _ => none),
         m2 ++ diffs.filterMap (fun e =>
            match e.Local, e.Deployed with
            | some _, some dv => some (e.Key, dv)
            | _, _ => none)) := by
  induction diffs with
  | nil => intro m1 m2 _ _ _; simp [reportDiffs]
  | cons e rest ih =>
    intro m1 m2 hnd h1 h2
    have hkey : e.Key ∉ rest.map SecretDifference.Key := by
      simp only [List.map_cons, List.nodup_cons] at hnd
      exact hnd.1
    have hnd' : (rest.map SecretDifference.Key).Nodup := by
      simp only [List.map_cons, List.nodup_cons] at hnd
      exact hnd.2
    rw [reportDiffs]
    cases hL : e.Local with
    | none =>
      cases hD : e.Deployed with
      | none =>
        rw [show reportStep (m1, m2) e = (m1, m2) by simp [reportStep, hL, hD]]
        rw [ih m1 m2 hnd' (fun x hx => h1 x (List.mem_cons_of_mem e hx))
          (fun x hx => h2 x (List.mem_cons_of_mem e hx))]
        simp [List.filterMap_cons, hL, hD]
      | some dv =>
        rw [show reportStep (m1, m2) e = (goInsert m1 e.Key dv, m2) by
          simp [reportStep, hL, hD]]
        rw [goInsert_of_not_mem dv (h1 e (List.mem_cons_self e rest))]
        rw [ih (m1 ++ [(e.Key, dv)]) m2 hnd' ?ha ?hb]
        · simp [List.filterMap_cons, hL, hD]
        case ha =>
          intro x hx
          simp only [List.map_append, List.mem_append]
          rintro (hm | hm)
          · exact h1 x (List.mem_cons_of_mem e hx) hm
          · simp at hm
            exact hkey (hm ▸ List.mem_map_of_mem SecretDifference.Key hx)
        case hb =>
          exact fun x hx => h2 x (List.mem_cons_of_mem e hx)
    | some lv =>
      cases hD : e.Deployed with
      | none =>
        rw [show reportStep (m1, m2) e = (m1, m2) by simp [reportStep, hL, hD]]
        rw [ih m1 m2 hnd' (fun x hx => h1 x (List.mem_cons_of_mem e hx))
          (fun x hx => h2 x (List.mem_cons_of_mem e hx))]
        simp [List.filterMap_cons, hL, hD]
      | some dv =>
        rw [show reportStep (m1, m2) e = (m1, goInsert m2 e.Key dv) by
          simp [reportStep, hL, hD]]
        rw [goInsert_of_not_mem dv (h2 e (List.mem_cons_self e rest))]
        rw [ih m1 (m2 ++ [(e.Key, dv)]) hnd' ?hc ?hd]
        · simp [List.filterMap_cons, hL, hD]
        case hc =>
          exact fun x hx => h1 x (List.mem_cons_of_mem e hx)
        case hd =>
          intro x hx
          simp only [List.map_append, List.mem_append]
          rintro (hm | hm)
          · exact h2 x (List.mem_cons_of_mem e hx) hm
          · simp at hm
            exact hkey (hm ▸ List.mem_map_of_mem SecretDifference.Key hx)

theorem key_unique_of_nodup {diffs : List SecretDifference}
    (hnd : (diffs.map SecretDifference.Key).Nodup) {e1 e2 : SecretDifference}
    (h1 : e1 ∈ diffs) (h2 : e2 ∈ diffs) (hk : e1.Key = e2.Key) : e1 = e2 :=
  List.inj_on_of_nodup_map hnd h1 h2 hk

/-- C5: over the Diff Engine's output for a resource, `replaceLocalKeys`
holds exactly the DIFFERENT keys (valued by the deployed value),
`missingLocalKeys` exactly the ONLY_IN_DEPLOYED keys (valued by the deployed
value), ONLY_IN_LOCAL keys enter neither map, and each snippet is rendered
iff its accumulator is non-empty. -/
theorem reporter_accumulators_spec :
    ∀ (localS : KubernetesSecret) (d : DeployedSecret),
      (∀ k v, (k, v) ∈ replaceLocalKeys (compareSecretsBody localS d) ↔
        ∃ lv, (⟨k, some lv, some v⟩ : SecretDifference) ∈ compareSecretsBody localS d)
      ∧ (∀ k v, (k, v) ∈ missingLocalKeys (compareSecretsBody localS d) ↔
        (⟨k, none, some v⟩ : SecretDifference) ∈ compareSecretsBody localS d)
      ∧ (∀ k lv, (⟨k, some lv, none⟩ : SecretDifference) ∈ compareSecretsBody localS d →
          ∀ v, (k, v) ∉ replaceLocalKeys (compareSecretsBody localS d)
            ∧ (k, v) ∉ missingLocalKeys (compareSecretsBody localS d))
      ∧ (mergeSnippetRendered (compareSecretsBody localS d) = true ↔
          replaceLocalKeys (compareSecretsBody localS d) ≠ [])
      ∧ (addSnippetRendered (compareSecretsBody localS d) = true ↔
          missingLocalKeys (compareSecretsBody localS d) ≠ []) := by
  intro localS d
  have hnd := compareSecretsBody_keys_nodup localS d
  have hrep := reportDiffs_eq_append (compareSecretsBody localS d) [] [] hnd
    (by simp) (by simp)
  have hR : replaceLocalKeys (compareSecretsBody localS d) =
      (compareSecretsBody localS d).filterMap (fun e =>
        match e.Local, e.Deployed with
        | some _, some dv => some (e.Key, dv)
        | _, _ => none) := by
    rw [replaceLocalKeys, hrep]
    simp
  have hM : missingLocalKeys (compareSecretsBody localS d) =
      (compareSecretsBody localS d).filterMap (fun e =>
        match e.Local, e.Deployed with
        | none, some dv => some (e.Key, dv)
        | _, _ => none) := by
    rw [missingLocalKeys, hrep]
    simp
  have memR : ∀ k v, (k, v) ∈ replaceLocalKeys (compareSecretsBody localS d) ↔
      ∃ lv, (⟨k, some lv, some v⟩ : SecretDifference) ∈ compareSecretsBody localS d := by
    intro k v
    rw [hR, List.mem_filterMap]
    constructor
    · rintro ⟨e, he, hf⟩
      obtain ⟨ek, eL, eD⟩ := e
      cases eL <;> cases eD <;> simp at hf
      obtain ⟨hk, hv⟩ := hf
      subst hk
      subst hv
      exact ⟨_, he⟩
    · rintro ⟨lv, he⟩
      exact ⟨⟨k, some lv, some v⟩, he, rfl⟩
  have memM : ∀ k v, (k, v) ∈ missingLocalKeys (compareSecretsBody localS d) ↔
      (⟨k, none, some v⟩ : SecretDifference) ∈ compareSecretsBody localS d := by
    intro k v
    rw [hM, List.mem_filterMap]
    constructor
    · rintro ⟨e, he, hf⟩
      obtain ⟨ek, eL, eD⟩ := e
      cases eL <;> cases eD <;> simp at hf
      obtain ⟨hk, hv⟩ := hf
      subst hk
      subst hv
      exact he
    · intro he
      exact ⟨⟨k, none, some v⟩, he, rfl⟩
  refine ⟨memR, memM, ?_, ?_, ?_⟩
  · intro k lv hmem v
    constructor
    · intro hc
      obtain ⟨lv', hmem'⟩ := (memR k v).mp hc
      have := key_unique_of_nodup hnd hmem hmem' rfl
      simp [SecretDifference.mk.injEq] at this
    · intro hc
      have hmem' := (memM k v).mp hc
      have := key_unique_of_nodup hnd hmem hmem' rfl
      simp [SecretDifference.mk.injEq] at this
  · rw [mergeSnippetRendered]
    simp [List.length_pos]
  · rw [addSnippetRendered]
    simp [List.length_pos]

/-! Deployed data decoding. -/

theorem findVal_map_value (l : List (String × List UInt8)) (k : String) :
    findVal (l.map (fun kv => (kv.1, stringOfBytes kv.2))) k =
      (findVal l k).map stringOfBytes := by
  induction l with
  | nil => rfl
  | cons p rest ih =>
    obtain ⟨k0, v0⟩ := p
    by_cases h : k0 = k <;> simp [findVal, h, ih]

theorem findVal_foldl_goInsert (entries : KVMap) :
    ∀ (init : KVMap) (k : String), (entries.map Prod.fst).Nodup →
      findVal (entries.foldl (fun m kv => goInsert m kv.1 kv.2) init) k =
        (findVal entries k <|> findVal init k) := by
  induction entries with
  | nil => intro init k _; simp [findVal]
  | cons p rest ih =>
    intro init k hnd
    obtain ⟨k0, v0⟩ := p
    simp only [List.map_cons, List.nodup_cons] at hnd
    rw [List.foldl_cons, ih (goInsert init k0 v0) k hnd.2, findVal_goInsert]
    by_cases h : k0 = k
    · subst h
      have hrest : findVal rest k0 = none := (findVal_eq_none_iff rest k0).mpr hnd.1
      simp [findVal, hrest]
    · simp [findVal, h]

/-- C10: a successfully fetched secret is decoded by copying every `data`
entry (bytes read back as a string) and then every `stringData` entry, so on
any key held by both fields the `stringData` value wins, and on a key held
by one field that field's value is used. -/
theorem deployedData_stringData_overrides :
    ∀ (cs : ClusterSecret) (k : String),
      (cs.Data.map Prod.fst).Nodup → (cs.StringData.map Prod.fst).Nodup →
      getDeployedSecret (FetchOutcome.found cs) =
        Except.ok (some ⟨cs.Name, cs.Namespace, decodeDeployedData cs⟩)
      ∧ findVal (decodeDeployedData cs) k =
          (findVal cs.StringData k <|> (findVal cs.Data k).map stringOfBytes) := by
  intro cs k hd hs
  refine ⟨rfl, ?_⟩
  have hinner : findVal
      (cs.Data.foldl (fun m kv => goInsert m kv.1 (stringOfBytes kv.2)) []) k =
      (findVal cs.Data k).map stringOfBytes := by
    have h1 : cs.Data.foldl (fun m kv => goInsert m kv.1 (stringOfBytes kv.2))
        ([] : KVMap) =
        (cs.Data.map (fun kv => (kv.1, stringOfBytes kv.2))).foldl
          (fun m kv => goInsert m kv.1 kv.2) [] := by
      rw [List.foldl_map]
    have h2 : ((cs.Data.map (fun kv => (kv.1, stringOfBytes kv.2))).map
        Prod.fst).Nodup := by
      simpa [List.map_map, Function.comp_def] using hd
    rw [h1, findVal_foldl_goInsert _ _ _ h2, findVal_map_value]
    cases findVal cs.Data k <;> rfl
  rw [decodeDeployedData, findVal_foldl_goInsert _ _ _ hs, hinner]

/-- Witness for C10 at a concrete secret: key "a" is carried by both fields
(`data` holds the byte 120, i.e. "x"; `stringData` holds "y") and the decoded
map resolves it to the `stringData` value "y". -/
theorem deployedData_stringData_overrides_witness :
    findVal (decodeDeployedData ⟨"s", "ns", [("a", [120])], [("a", "y")]⟩) "a" =
      some "y" :=
  ((deployedData_stringData_overrides ⟨"s", "ns", [("a", [120])], [("a", "y")]⟩ "a"
    (by decide) (by decide)).2).trans (by decide)

/-! Splitting and joining lines. -/

theorem goSplit_ne_nil (sep : Char) (s : List Char) : goSplit sep s ≠ [] := by
  induction s with
  | nil => simp [goSplit]
  | cons c cs ih =>
    rw [goSplit]
    by_cases h : c = sep
    · simp [h]
    · simp only [h, if_false]
      cases hs : goSplit sep cs <;> simp

theorem not_mem_of_mem_goSplit (sep : Char) (s : List Char) :
    ∀ l ∈ goSplit sep s, sep ∉ l := by
  induction s with
  | nil =>
    intro l hl
    simp [goSplit] at hl
    simp [hl]
  | cons c cs ih =>
    intro l hl
    rw [goSplit] at hl
    by_cases h : c = sep
    · simp only [h, if_true] at hl
      rcases List.mem_cons.mp hl with h0 | h0
      · simp [h0]
      · exact ih l h0
    · simp only [h, if_false] at hl
      cases hs : goSplit sep cs with
      | nil =>
        rw [hs] at hl
        simp at hl
        simp [hl, Ne.symm h]
      | cons l0 ls =>
        rw [hs] at hl
        rcases List.mem_cons.mp hl with h0 | h0
        · subst h0
          intro hmem
          rcases List.mem_cons.mp hmem with h1 | h1
          · exact h h1.symm
          · exact ih l0 (hs ▸ List.mem_cons_self l0 ls) h1
        · exact ih l (hs ▸ List.mem_cons_of_mem l0 h0)

theorem goSplit_of_not_mem (sep : Char) (s : List Char) (h : sep ∉ s) :
    goSplit sep s = [s] := by
  induction s with
  | nil => rfl
  | cons c cs ih =>
    have hc : ¬(c = sep) := fun he => h (he ▸ List.mem_cons_self c cs)
    have hcs : sep ∉ cs := fun hm => h (List.mem_cons_of_mem c hm)
    rw [goSplit]
    simp only [hc, if_false, ih hcs]

theorem goSplit_append_sep (sep : Char) (a t : List Char) (ha : sep ∉ a) :
    goSplit sep (a ++ sep :: t) = a :: goSplit sep t := by
  induction a with
  | nil =>
    rw [List.nil_append, goSplit]
    simp
  | cons c a' ih =>
    have hc : ¬(c = sep) := fun he => ha (he ▸ List.mem_cons_self c a')
    have ha' : sep ∉ a' := fun hm => ha (List.mem_cons_of_mem c hm)
    rw [List.cons_append, goSplit]
    simp only [hc, if_false, ih ha']

theorem goSplit_goJoin (sep : Char) :
    ∀ ls : List (List Char), (∀ l ∈ ls, sep ∉ l) → ls ≠ [] →
      goSplit sep (goJoin sep ls) = ls := by
  intro ls
  induction ls with
  | nil => intro _ hne; cases hne rfl
  | cons l rest ih =>
    intro h _
    cases rest with
    | nil =>
      rw [show goJoin sep [l] = l from rfl]
      exact goSplit_of_not_mem sep l (h l (List.mem_cons_self l []))
    | cons l2 rest2 =>
      rw [show goJoin sep (l :: l2 :: rest2) = l ++ sep :: goJoin sep (l2 :: rest2)
        from rfl]
      rw [goSplit_append_sep sep l _ (h l (List.mem_cons_self l (l2 :: rest2)))]
      rw [ih (fun x hx => h x (List.mem_cons_of_mem l hx)) (List.cons_ne_nil l2 rest2)]

/-- C4: a value containing a newline is rendered as `|-` followed by each of
its lines indented by exactly four spaces, newline-joined (so the rendered
text splits back into the `|-` line followed by the indented lines); any
other value is double-quoted with exactly the literal `"` characters escaped
by a preceding backslash, and if it has no embedded quote the result is
plainly the value wrapped in double quotes. -/
theorem formatYAMLValue_spec :
    ∀ v : List Char,
      ('\n' ∈ v →
        formatYAMLValue v = '|' :: '-' :: '\n' ::
            goJoin '\n'
              ((goSplit '\n' v).map (fun line => ' ' :: ' ' :: ' ' :: ' ' :: line))
        ∧ goSplit '\n' (formatYAMLValue v) =
            ['|', '-'] ::
              (goSplit '\n' v).map (fun line => ' ' :: ' ' :: ' ' :: ' ' :: line))
      ∧ ('\n' ∉ v →
        formatYAMLValue v =
          '"' :: v.flatMap (fun c => if c = '"' then ['\\', '"'] else [c]) ++ ['"'])
      ∧ ('\n' ∉ v → '"' ∉ v → formatYAMLValue v = '"' :: v ++ ['"']) := by
  intro v
  refine ⟨?_, ?_, ?_⟩
  · intro hv
    have heq : formatYAMLValue v = '|' :: '-' :: '\n' ::
        goJoin '\n'
          ((goSplit '\n' v).map (fun line => ' ' :: ' ' :: ' ' :: ' ' :: line)) := by
      rw [formatYAMLValue, if_pos hv]
    refine ⟨heq, ?_⟩
    rw [heq]
    have hnosep : ∀ l ∈ (goSplit '\n' v).map
        (fun line => ' ' :: ' ' :: ' ' :: ' ' :: line), '\n' ∉ l := by
      intro l hl
      obtain ⟨line, hline, rfl⟩ := List.mem_map.mp hl
      intro hmem
      rcases List.mem_cons.mp hmem with h0 | h0
      · exact absurd h0 (by decide)
      rcases List.mem_cons.mp h0 with h1 | h1
      · exact absurd h1 (by decide)
      rcases List.mem_cons.mp h1 with h2 | h2
      · exact absurd h2 (by decide)
      rcases List.mem_cons.mp h2 with h3 | h3
      · exact absurd h3 (by decide)
      · exact not_mem_of_mem_goSplit '\n' v line hline h3
    have hne : (goSplit '\n' v).map
        (fun line => ' ' :: ' ' :: ' ' :: ' ' :: line) ≠ [] := by
      intro h
      exact goSplit_ne_nil '\n' v (List.map_eq_nil_iff.mp h)
    have hjoin := goSplit_goJoin '\n' _ hnosep hne
    rw [goSplit, if_neg (by decide), goSplit, if_neg (by decide), goSplit,
      if_pos rfl, hjoin]
  · intro hv
    rw [formatYAMLValue, if_neg hv, goReplaceAllQuote]
  · intro hv hq
    rw [formatYAMLValue, if_neg hv, goReplaceAllQuote]
    congr 1
    have : ∀ w : List Char, '"' ∉ w →
        w.flatMap (fun c => if c = '"' then ['\\', '"'] else [c]) = w := by
      intro w
      induction w with
      | nil => intro _; rfl
      | cons c cs ih =>
        intro hw
        have hc : ¬(c = '"') := fun he => hw (he ▸ List.mem_cons_self c cs)
        have hcs : '"' ∉ cs := fun hm => hw (List.mem_cons_of_mem c hm)
        simp [hc, ih hcs]
    rw [this v hq]

/-! Glob matching. -/

theorem mem_nonSepSuffixes (s t : List Char) :
    t ∈ nonSepSuffixes s ↔ ∃ a, s = a ++ t ∧ '/' ∉ a := by
  induction s generalizing t with
  | nil =>
    rw [nonSepSuffixes]
    constructor
    · intro h
      simp at h
      exact ⟨[], by simp [h], by simp⟩
    · rintro ⟨a, ha, _⟩
      have h0 := List.append_eq_nil.mp ha.symm
      simp [h0.2]
  | cons c rest ih =>
    rw [nonSepSuffixes]
    by_cases hc : c = '/'
    · simp only [hc, if_pos rfl]
      constructor
      · intro h
        rcases List.mem_cons.mp h with h0 | h0
        · exact ⟨[], by simp [h0, hc], by simp⟩
        · simp at h0
      · rintro ⟨a, ha, hna⟩
        cases a with
        | nil =>
          simp at ha
          simp [hc, ha]
        | cons a0 a' =>
          rw [List.cons_append] at ha
          cases ha
          exact absurd (List.mem_cons_self '/' a') hna
    · simp only [hc, if_neg hc]
      constructor
      · intro h
        rcases List.mem_cons.mp h with h0 | h0
        · exact ⟨[], by simp [h0], by simp⟩
        · obtain ⟨a, ha, hna⟩ := (ih t).mp h0
          refine ⟨c :: a, by simp [ha], ?_⟩
          intro hm
          rcases List.mem_cons.mp hm with h1 | h1
          · exact hc h1.symm
          · exact hna h1
      · rintro ⟨a, ha, hna⟩
        cases a with
        | nil =>
          simp only [List.nil_append] at ha
          rw [ha]
          exact List.mem_cons_self _ _
        | cons a0 a' =>
          rw [List.cons_append] at ha
          cases ha
          refine List.mem_cons_of_mem _ ((ih t).mpr ⟨a', rfl, ?_⟩)
          exact fun hm => hna (List.mem_cons_of_mem c hm)

theorem globMatch_nil_iff (s : List Char) : globMatch [] s = true ↔ s = [] := by
  rw [show globMatch [] s = s.isEmpty from rfl]
  simp [List.isEmpty_iff]

theorem globMatch_star (p s : List Char) :
    globMatch ('*' :: p) s = true ↔
      ∃ a t, s = a ++ t ∧ '/' ∉ a ∧ globMatch p t = true := by
  rw [show globMatch ('*' :: p) s = (nonSepSuffixes s).any (fun t => globMatch p t)
    from rfl, List.any_eq_true]
  constructor
  · rintro ⟨t, ht, hm⟩
    obtain ⟨a, rfl, ha⟩ := (mem_nonSepSuffixes s t).mp ht
    exact ⟨a, t, rfl, ha, hm⟩
  · rintro ⟨a, t, rfl, ha, hm⟩
    exact ⟨t, (mem_nonSepSuffixes _ t).mpr ⟨a, rfl, ha⟩, hm⟩

theorem globMatch_cons_lit (c : Char) (hc : c ≠ '*') (p s : List Char) :
    globMatch (c :: p) s = true ↔ ∃ s', s = c :: s' ∧ globMatch p s' = true := by
  rw [show globMatch (c :: p) s =
      (if c = '*' then (nonSepSuffixes s).any (fun t => globMatch p t)
       else match s with
            | [] => false
            | c' :: s' => decide (c = c') && globMatch p s') from rfl, if_neg hc]
  cases s with
  | nil => simp
  | cons c' s' =>
    simp only [Bool.and_eq_true, decide_eq_true_eq]
    constructor
    · rintro ⟨rfl, hm⟩
      exact ⟨s', rfl, hm⟩
    · rintro ⟨s'', heq, hm⟩
      cases heq
      exact ⟨rfl, hm⟩

theorem globMatch_append_lit :
    ∀ lit : List Char, '*' ∉ lit → ∀ p s : List Char,
      globMatch (lit ++ p) s = true ↔
        ∃ s', s = lit ++ s' ∧ globMatch p s' = true := by
  intro lit
  induction lit with
  | nil =>
    intro _ p s
    simp
  | cons c lit' ih =>
    intro hlit p s
    have hc : c ≠ '*' := fun he => hlit (he ▸ List.mem_cons_self c lit')
    have hlit' : '*' ∉ lit' := fun hm => hlit (List.mem_cons_of_mem c hm)
    rw [List.cons_append, globMatch_cons_lit c hc]
    constructor
    · rintro ⟨s1, rfl, hm⟩
      obtain ⟨s2, rfl, hm2⟩ := (ih hlit' p s1).mp hm
      exact ⟨s2, rfl, hm2⟩
    · rintro ⟨s2, rfl, hm⟩
      exact ⟨lit' ++ s2, rfl, (ih hlit' p (lit' ++ s2)).mpr ⟨s2, rfl, hm⟩⟩

theorem globMatch_lit_exact (lit : List Char) (hlit : '*' ∉ lit) (u : List Char) :
    globMatch lit u = true ↔ u = lit := by
  have h := globMatch_append_lit lit hlit [] u
  rw [List.append_nil] at h
  rw [h]
  constructor
  · rintro ⟨s', rfl, hm⟩
    rw [globMatch_nil_iff] at hm
    simp [hm]
  · rintro rfl
    exact ⟨[], by simp, by rw [globMatch_nil_iff]⟩

theorem globMatch_star_secret_star (suffix : List Char) (hsuf : '*' ∉ suffix)
    (s : List Char) :
    globMatch ('*' :: ("secret".toList ++ '*' :: suffix)) s = true ↔
      ∃ a b, s = a ++ "secret".toList ++ b ++ suffix ∧ '/' ∉ a ∧ '/' ∉ b := by
  rw [globMatch_star]
  constructor
  · rintro ⟨a, t, rfl, ha, hm⟩
    obtain ⟨t1, rfl, hm2⟩ :=
      (globMatch_append_lit "secret".toList (by decide) _ t).mp hm
    rw [globMatch_star] at hm2
    obtain ⟨b, u, rfl, hb, hm3⟩ := hm2
    obtain rfl := (globMatch_lit_exact suffix hsuf u).mp hm3
    exact ⟨a, b, by simp [List.append_assoc], ha, hb⟩
  · rintro ⟨a, b, rfl, ha, hb⟩
    refine ⟨a, "secret".toList ++ (b ++ suffix), by simp [List.append_assoc], ha, ?_⟩
    refine (globMatch_append_lit "secret".toList (by decide) _ _).mpr
      ⟨b ++ suffix, rfl, ?_⟩
    rw [globMatch_star]
    exact ⟨b, suffix, rfl, hb, (globMatch_lit_exact suffix hsuf suffix).mpr rfl⟩

/-- C8 counterexample: "config.yaml" contains "config" and carries the .yaml
extension, yet no glob of the default `--pattern` value matches it — the
default patterns require "secret" in the filename. -/
theorem defaultPattern_misses_config :
    "config.yaml".toList = "config".toList ++ ".yaml".toList
    ∧ defaultPatternMatches ("config.yaml".toList) = false := by
  constructor
  · decide
  · decide

/-- C8 amended: the default `--pattern` value is the comma-separated glob
list `*secret*.yaml,*secret*.yml`, matching exactly the filenames that
contain "secret" (with no path separator inside the wildcard parts) and end
in ".yaml" or ".yml"; filenames containing only "config" are not matched. -/
theorem defaultPattern_characterization :
    ∀ name : List Char,
      defaultPatternMatches name = true ↔
        (∃ a b, name = a ++ "secret".toList ++ b ++ ".yaml".toList
          ∧ '/' ∉ a ∧ '/' ∉ b)
        ∨ (∃ a b, name = a ++ "secret".toList ++ b ++ ".yml".toList
          ∧ '/' ∉ a ∧ '/' ∉ b) := by
  intro name
  have hp : parsePatterns defaultPattern =
      ["*secret*.yaml".toList, "*secret*.yml".toList] := by decide
  have h1 : "*secret*.yaml".toList =
      '*' :: ("secret".toList ++ '*' :: ".yaml".toList) := by decide
  have h2 : "*secret*.yml".toList =
      '*' :: ("secret".toList ++ '*' :: ".yml".toList) := by decide
  rw [defaultPatternMatches, hp, List.any_cons, List.any_cons, List.any_nil,
    Bool.or_false, Bool.or_eq_true, h1, h2,
    globMatch_star_secret_star _ (by decide) name,
    globMatch_star_secret_star _ (by decide) name]
